import Mathlib

/-!
Verification of the stream-sketch toolkit: reservoir sampling (task1),
Bloom filter (task2), and Flajolet–Martin cardinality estimation (task3).
Python sources are shallowly embedded as Lean functions; SHA-256 is kept
abstract as a parameter `sha : String → Nat` (the code only relies on it
being a deterministic function into the naturals).
-/

/-! ## Task 2: Bloom filter -/

/-- Salt string built by the lambda inside `create_hash_functions`:
`f"hash_function_index_{index}_bank_account_{x}"`. -/
def saltKey (index : Nat) (x : String) : String :=
  "hash_function_index_" ++ toString index ++ "_bank_account_" ++ x

/-- Embeds `create_hash_functions(num_hash_functions, size_bit_array)`:
returns the list of `num_hash_functions` closures
`x ↦ int(sha256(salt(i, x)), 16) % size_bit_array`, with the digest-to-integer
conversion abstracted as `sha`. -/
def create_hash_functions (sha : String → Nat) (num_hash_functions size_bit_array : Nat) :
    List (String → Nat) :=
  (List.range num_hash_functions).map (fun i => fun x => sha (saltKey i x) % size_bit_array)

/-- Embeds `add_to_bloom_filter`: sets `bloom_filter[h(x)] = 1` for each hash
function (a `List.set` out of range is a no-op, matching that the Python code
only ever indexes in range for filters sized to the hash family). -/
def add_to_bloom_filter (bloom_filter : List Nat) (hash_functions : List (String → Nat))
    (bank_account : String) : List Nat :=
  hash_functions.foldl (fun b f => b.set (f bank_account) 1) bloom_filter

/-- Embeds `check_bloom_filter`: returns `False` as soon as one probed bit
differs from 1, else `True` (out-of-range reads give the default 0, again
unreachable for filters sized to the hash family). -/
def check_bloom_filter (bloom_filter : List Nat) (hash_functions : List (String → Nat))
    (bank_account : String) : Bool :=
  hash_functions.all (fun f => bloom_filter.getD (f bank_account) 0 == 1)

/-- Adding a batch of keys one after the other, as the driver loop does. -/
def add_all_to_bloom_filter (bloom_filter : List Nat) (hash_functions : List (String → Nat))
    (accounts : List String) : List Nat :=
  accounts.foldl (fun b acc => add_to_bloom_filter b hash_functions acc) bloom_filter

theorem length_add_to_bloom_filter (b : List Nat) (hfs : List (String → Nat)) (x : String) :
    (add_to_bloom_filter b hfs x).length = b.length := by
  unfold add_to_bloom_filter
  induction hfs generalizing b with
  | nil => rfl
  | cons f fs ih => simpa using ih (b.set (f x) 1)

theorem getD_set_one (b : List Nat) (i j : Nat) (h : b.getD i 0 = 1) :
    (b.set j 1).getD i 0 = 1 := by
  rcases Nat.lt_or_ge i b.length with hi | hi
  · rcases eq_or_ne j i with rfl | hne
    · simp [List.getD, List.getElem?_set_self (by simpa using hi)]
    · simpa [List.getD, List.getElem?_set_ne hne] using h
  · have : b.getD i 0 = 0 := by
      simp [List.getD, List.getElem?_eq_none (by simpa using hi)]
    omega

theorem add_preserves_one (b : List Nat) (hfs : List (String → Nat)) (y : String) (i : Nat)
    (h : b.getD i 0 = 1) : (add_to_bloom_filter b hfs y).getD i 0 = 1 := by
  unfold add_to_bloom_filter
  induction hfs generalizing b with
  | nil => exact h
  | cons f fs ih => exact ih (b.set (f y) 1) (getD_set_one b i (f y) h)

theorem add_sets_bits (b : List Nat) (hfs : List (String → Nat)) (x : String)
    (f : String → Nat) (hf : f ∈ hfs) (hlt : f x < b.length) :
    (add_to_bloom_filter b hfs x).getD (f x) 0 = 1 := by
  unfold add_to_bloom_filter
  induction hfs generalizing b with
  | nil => cases hf
  | cons g gs ih =>
    rcases List.mem_cons.mp hf with rfl | hmem
    · have h1 : (b.set (f x) 1).getD (f x) 0 = 1 := by
        simp [List.getD, List.getElem?_set_self (by simpa using hlt)]
      exact add_preserves_one (b.set (f x) 1) gs x (f x) h1
    · exact ih (b.set (g x) 1) hmem (by simpa using hlt)

theorem add_all_preserves_one (b : List Nat) (hfs : List (String → Nat)) (ys : List String)
    (i : Nat) (h : b.getD i 0 = 1) :
    (add_all_to_bloom_filter b hfs ys).getD i 0 = 1 := by
  unfold add_all_to_bloom_filter
  induction ys generalizing b with
  | nil => exact h
  | cons y ys ih => exact ih (add_to_bloom_filter b hfs y) (add_preserves_one b hfs y i h)

/-- C1: a key added to the Bloom filter built from `create_hash_functions h N`
(with `N ≥ 1`, `h ≥ 1`, filter length `N`) still checks as a member after any
further sequence of insertions. -/
theorem bloom_no_false_negatives (sha : String → Nat) (h N : Nat) (hN : 1 ≤ N) (hh : 1 ≤ h)
    (bloom : List Nat) (hlen : bloom.length = N) (x : String) (later : List String) :
    check_bloom_filter
      (add_all_to_bloom_filter (add_to_bloom_filter bloom (create_hash_functions sha h N) x)
        (create_hash_functions sha h N) later)
      (create_hash_functions sha h N) x = true := by
  rw [check_bloom_filter, List.all_eq_true]
  intro f hf
  have hlt : f x < bloom.length := by
    rw [hlen]
    rcases List.mem_map.mp hf with ⟨i, _, rfl⟩
    exact Nat.mod_lt _ (by omega)
  have h1 := add_sets_bits bloom (create_hash_functions sha h N) x f hf hlt
  have h2 := add_all_preserves_one _ (create_hash_functions sha h N) later (f x) h1
  simpa using h2

/-- Witness for C1 at a concrete instance. -/
theorem bloom_no_false_negatives_witness :
    (1 ≤ 5 ∧ 1 ≤ 2 ∧ ([0, 0, 0, 0, 0] : List Nat).length = 5) ∧
    check_bloom_filter
      (add_all_to_bloom_filter
        (add_to_bloom_filter [0, 0, 0, 0, 0] (create_hash_functions String.length 2 5) "a")
        (create_hash_functions String.length 2 5) ["b", "cc"])
      (create_hash_functions String.length 2 5) "a" = true :=
  ⟨by repeat' constructor,
    bloom_no_false_negatives String.length 2 5 (by decide) (by decide)
      [0, 0, 0, 0, 0] (by decide) "a" ["b", "cc"]⟩

/-- C7: every function produced by `create_hash_functions` is a pure function
of the slot index and the key (hence deterministic), its value on every key is
`sha(salt(i, key)) % N`, which lies in `[0, N)` whenever `N ≥ 1`; consequently
every index probed by `add_to_bloom_filter`/`check_bloom_filter` on a length-`N`
bit array is in bounds, and adding preserves the array length (no runtime
failure). -/
theorem hash_family_deterministic_and_in_range (sha : String → Nat) (h N : Nat) (hN : 1 ≤ N) :
    (∀ i, i < h → ∀ key,
        (create_hash_functions sha h N).getD i (fun _ => 0) key = sha (saltKey i key) % N) ∧
    (∀ f ∈ create_hash_functions sha h N, ∀ key, f key < N) ∧
    (∀ bloom : List Nat, bloom.length = N → ∀ key,
        (∀ f ∈ create_hash_functions sha h N, f key < bloom.length) ∧
        (add_to_bloom_filter bloom (create_hash_functions sha h N) key).length = N) := by
  refine ⟨?_, ?_, ?_⟩
  · intro i hi key
    rw [create_hash_functions, List.getD_eq_getElem?_getD,
      List.getElem?_map, List.getElem?_range hi]
    rfl
  · intro f hf key
    rcases List.mem_map.mp hf with ⟨i, _, rfl⟩
    exact Nat.mod_lt _ (by omega)
  · intro bloom hlen key
    constructor
    · intro f hf
      rcases List.mem_map.mp hf with ⟨i, _, rfl⟩
      rw [hlen]
      exact Nat.mod_lt _ (by omega)
    · rw [length_add_to_bloom_filter, hlen]

/-- Witness for C7 at a concrete instance. -/
theorem hash_family_deterministic_and_in_range_witness :
    1 ≤ 7 ∧ (∀ f ∈ create_hash_functions String.length 3 7, ∀ key, f key < 7) :=
  ⟨by decide, (hash_family_deterministic_and_in_range String.length 3 7 (by decide)).2.1⟩

/-- C10: with the empty hash family (exactly what `create_hash_functions 0 N`
returns), `check_bloom_filter` vacuously answers `True` for every key and
`add_to_bloom_filter` leaves the bit array unchanged. -/
theorem empty_hash_family_vacuous :
    (∀ sha N, create_hash_functions sha 0 N = []) ∧
    (∀ (bloom : List Nat) (key : String), check_bloom_filter bloom [] key = true) ∧
    (∀ (bloom : List Nat) (key : String), add_to_bloom_filter bloom [] key = bloom) :=
  ⟨fun _ _ => rfl, fun _ _ => rfl, fun _ _ => rfl⟩

/-! ## Task 3: Flajolet–Martin cardinality estimator -/

/-- Big-endian bit list of a positive natural, mirroring Python's `bin(x)[2:]`
for `x ≥ 1` (empty for 0; `natToBin` below handles the `"0"` case). -/
def natToBinAux : Nat → List Bool
  | 0 => []
  | n + 1 => natToBinAux ((n + 1) / 2) ++ [decide ((n + 1) % 2 = 1)]
decreasing_by exact Nat.div_lt_self (Nat.succ_pos n) one_lt_two

/-- Embeds `bin(x)[2:]` as a bit list: `"0"` for zero, else the positional
binary digits, most significant first. -/
def natToBin (x : Nat) : List Bool :=
  if x = 0 then [false] else natToBinAux x

/-- Embeds `FlajoletMartin.count_trailing_zeros`: reverse the binary digit
string and take the index of the first `'1'`; a `ValueError` (no `'1'`
present, i.e. `x = 0`) is caught and mapped to 0. -/
def count_trailing_zeros (x : Nat) : Nat :=
  let bits := (natToBin x).reverse
  if true ∈ bits then bits.findIdx (· == true) else 0

/-- Embeds `FlajoletMartin.hash_function`: hash `f"{seed}-{item}"` with the
abstracted digest-to-integer function `sha`. -/
def hash_function (sha : String → Nat) (item : String) (seed : Nat) : Nat :=
  sha (toString seed ++ "-" ++ item)

/-- State of the estimator: the list `self.max_trailing_zeros`. -/
structure FlajoletMartin where
  max_trailing_zeros : List Nat
deriving DecidableEq, Repr

/-- Embeds `FlajoletMartin.__init__(num_hashes)`: `[0] * num_hashes`. -/
def FlajoletMartin.init (num_hashes : Nat) : FlajoletMartin :=
  ⟨List.replicate num_hashes 0⟩

/-- Embeds `FlajoletMartin.add`: for each index `i` in
`range(len(self.max_trailing_zeros))`, replace the counter by the
trailing-zero count of `hash_function(item, i)` when that count is larger. -/
def FlajoletMartin.add (sha : String → Nat) (fm : FlajoletMartin) (item : String) :
    FlajoletMartin :=
  ⟨(List.range fm.max_trailing_zeros.length).map (fun i =>
      let trailing_zeros_count := count_trailing_zeros (hash_function sha item i)
      if trailing_zeros_count > fm.max_trailing_zeros.getD i 0 then trailing_zeros_count
      else fm.max_trailing_zeros.getD i 0)⟩

/-- A sequence of `add` calls, one per item, in order. -/
def FlajoletMartin.addAll (sha : String → Nat) (fm : FlajoletMartin) (items : List String) :
    FlajoletMartin :=
  items.foldl (FlajoletMartin.add sha) fm

/-- Embeds Python's `statistics.median` on the integer counter list: sort,
then take the middle element (odd length) or the average of the two middle
elements (even length), as an exact rational. -/
def median (l : List Nat) : ℚ :=
  let s := l.insertionSort (· ≤ ·)
  if l.length % 2 = 1 then (s.getD (l.length / 2) 0 : ℚ)
  else ((s.getD (l.length / 2 - 1) 0 : ℚ) + (s.getD (l.length / 2) 0 : ℚ)) / 2

/-- Value of the form `a + b·√2` with `a b : ℚ`; the exact value of the float
expression `2 ** m` for a half-integral exponent `m` lives in this ring. -/
structure Q2 where
  a : ℚ
  b : ℚ
deriving DecidableEq, Repr

/-- Exact value of `2 ** (n / 2)` for a natural `n` (the doubled median), as
an element of `ℚ + ℚ·√2`. -/
def pow2half (n : Nat) : Q2 :=
  if n % 2 = 0 then ⟨(2 : ℚ) ^ (n / 2), 0⟩ else ⟨0, (2 : ℚ) ^ (n / 2)⟩

/-- Constant `0.75351` appearing in `estimate_number` (the literature value
for the Flajolet–Martin correction is ≈ 0.77351). -/
def phiCode : ℚ := 75351 / 100000

/-- Embeds `FlajoletMartin.estimate_number`: with `median` the exact value of
`statistics.median(self.max_trailing_zeros)`, returns
`(2 ** median / 0.75351, median)`; the power `2 ** median` is represented
exactly in `ℚ + ℚ·√2` (for an odd number of counters the median is the middle
counter, a natural number; for an even number it is half the sum of the two
middle counters). -/
def FlajoletMartin.estimate_number (fm : FlajoletMartin) : Q2 × ℚ :=
  let s := fm.max_trailing_zeros.insertionSort (· ≤ ·)
  let n := fm.max_trailing_zeros.length
  if n % 2 = 1 then
    let m := s.getD (n / 2) 0
    (⟨(2 : ℚ) ^ m / phiCode, 0⟩, (m : ℚ))
  else
    let msum := s.getD (n / 2 - 1) 0 + s.getD (n / 2) 0
    (⟨(pow2half msum).a / phiCode, (pow2half msum).b / phiCode⟩, (msum : ℚ) / 2)

/-- Interpretation of `Q2` as a real number. -/
noncomputable def interpQ2 (v : Q2) : ℝ :=
  (v.a : ℝ) + (v.b : ℝ) * Real.sqrt 2

theorem natToBinAux_eq (x : Nat) (hx : x ≠ 0) :
    natToBinAux x = natToBinAux (x / 2) ++ [decide (x % 2 = 1)] := by
  cases x with
  | zero => cases hx rfl
  | succ n => rw [natToBinAux]

theorem true_mem_natToBinAux (x : Nat) (hx : x ≠ 0) : true ∈ natToBinAux x := by
  induction x using Nat.strong_induction_on with
  | _ x ih =>
    rw [natToBinAux_eq x hx, List.mem_append]
    rcases Nat.even_or_odd x with he | ho
    · have hx2 : x / 2 ≠ 0 := by
        rcases he with ⟨t, ht⟩
        omega
      exact Or.inl (ih (x / 2) (Nat.div_lt_self (Nat.pos_of_ne_zero hx) one_lt_two) hx2)
    · right
      have : x % 2 = 1 := Nat.odd_iff.mp ho
      simp [this]

theorem count_trailing_zeros_of_odd (x : Nat) (hx : x % 2 = 1) :
    count_trailing_zeros x = 0 := by
  have hx0 : x ≠ 0 := by omega
  rw [count_trailing_zeros, natToBin, if_neg hx0, natToBinAux_eq x hx0, List.reverse_append]
  simp [hx, List.findIdx_cons]

theorem count_trailing_zeros_of_even (x : Nat) (hx0 : x ≠ 0) (hx : x % 2 = 0) :
    count_trailing_zeros x = count_trailing_zeros (x / 2) + 1 := by
  have hx2 : x / 2 ≠ 0 := by omega
  have hmem : true ∈ (natToBinAux (x / 2)).reverse :=
    List.mem_reverse.mpr (true_mem_natToBinAux (x / 2) hx2)
  rw [count_trailing_zeros, count_trailing_zeros, natToBin, natToBin, if_neg hx0, if_neg hx2,
    natToBinAux_eq x hx0, List.reverse_append]
  simp only [hx, List.reverse_cons, List.reverse_nil, List.nil_append, List.singleton_append]
  rw [if_pos (by simp [hmem]), if_pos hmem, List.findIdx_cons]
  simp

/-- C8: `count_trailing_zeros 0 = 0`, and for every positive `x` the result is
the 0-indexed position of the lowest set bit of `x`: that bit of `x` is set
and all lower bits are clear. -/
theorem count_trailing_zeros_correct :
    count_trailing_zeros 0 = 0 ∧
    ∀ x : Nat, 0 < x →
      x.testBit (count_trailing_zeros x) = true ∧
        ∀ j, j < count_trailing_zeros x → x.testBit j = false := by
  constructor
  · rfl
  · intro x
    induction x using Nat.strong_induction_on with
    | _ x ih =>
      intro hx
      rcases Nat.even_or_odd x with he | ho
      · have hx2 : x % 2 = 0 := Nat.even_iff.mp he
        have hx0 : x ≠ 0 := by omega
        have hrec := count_trailing_zeros_of_even x hx0 hx2
        have hdiv : 0 < x / 2 := by omega
        obtain ⟨hbit, hlow⟩ := ih (x / 2) (Nat.div_lt_self hx one_lt_two) hdiv
        constructor
        · rw [hrec, Nat.testBit_succ]
          exact hbit
        · intro j hj
          cases j with
          | zero => simp [Nat.testBit_zero, hx2]
          | succ j =>
            rw [Nat.testBit_succ]
            exact hlow j (by omega)
      · have hx1 : x % 2 = 1 := Nat.odd_iff.mp ho
        rw [count_trailing_zeros_of_odd x hx1]
        exact ⟨by simp [Nat.testBit_zero, hx1], fun j hj => absurd hj (by omega)⟩

/-- Witness for C8 at `x = 12` (binary `1100`, two trailing zeros). -/
theorem count_trailing_zeros_correct_witness :
    0 < 12 ∧
      Nat.testBit 12 (count_trailing_zeros 12) = true ∧
        ∀ j, j < count_trailing_zeros 12 → Nat.testBit 12 j = false :=
  ⟨by decide, count_trailing_zeros_correct.2 12 (by decide)⟩

theorem fm_add_length (sha : String → Nat) (fm : FlajoletMartin) (it : String) :
    (fm.add sha it).max_trailing_zeros.length = fm.max_trailing_zeros.length := by
  simp [FlajoletMartin.add]

theorem fm_addAll_length (sha : String → Nat) (fm : FlajoletMartin) (items : List String) :
    (fm.addAll sha items).max_trailing_zeros.length = fm.max_trailing_zeros.length := by
  unfold FlajoletMartin.addAll
  induction items generalizing fm with
  | nil => rfl
  | cons it items ih => rw [List.foldl_cons, ih, fm_add_length]

theorem fm_add_getD (sha : String → Nat) (fm : FlajoletMartin) (it : String) (i : Nat)
    (hi : i < fm.max_trailing_zeros.length) :
    (fm.add sha it).max_trailing_zeros.getD i 0 =
      max (fm.max_trailing_zeros.getD i 0) (count_trailing_zeros (hash_function sha it i)) := by
  rw [FlajoletMartin.add]
  simp only [List.getD_eq_getElem?_getD, List.getElem?_map, List.getElem?_range hi,
    Option.map_some', Option.getD_some]
  split
  · exact (Nat.max_eq_right (Nat.le_of_lt (by assumption))).symm
  · exact (Nat.max_eq_left (Nat.le_of_not_lt (by assumption))).symm

theorem foldl_max_le_base (l : List Nat) (s : Nat) : s ≤ l.foldl max s := by
  induction l generalizing s with
  | nil => exact Nat.le_refl s
  | cons b l ih => exact Nat.le_trans (Nat.le_max_left s b) (ih (max s b))

theorem mem_le_foldl_max (l : List Nat) (s a : Nat) (ha : a ∈ l) : a ≤ l.foldl max s := by
  induction l generalizing s with
  | nil => cases ha
  | cons b l ih =>
    rcases List.mem_cons.mp ha with rfl | hmem
    · exact Nat.le_trans (Nat.le_max_right s a) (foldl_max_le_base l (max s a))
    · exact ih (max s b) hmem

theorem fm_addAll_getD (sha : String → Nat) (items : List String) (fm : FlajoletMartin)
    (i : Nat) (hi : i < fm.max_trailing_zeros.length) :
    (fm.addAll sha items).max_trailing_zeros.getD i 0 =
      (items.map (fun it => count_trailing_zeros (hash_function sha it i))).foldl max
        (fm.max_trailing_zeros.getD i 0) := by
  unfold FlajoletMartin.addAll
  induction items generalizing fm with
  | nil => rfl
  | cons it items ih =>
    rw [List.map_cons, List.foldl_cons, List.foldl_cons, ← fm_add_getD sha fm it i hi]
    exact ih (fm.add sha it) (by rw [fm_add_length]; exact hi)

theorem fm_init_getD (h i : Nat) :
    (FlajoletMartin.init h).max_trailing_zeros.getD i 0 = 0 := by
  have hrep : (FlajoletMartin.init h).max_trailing_zeros = List.replicate h 0 := rfl
  rw [hrep]
  rcases Nat.lt_or_ge i h with hi | hi
  · simp [List.getD_eq_getElem?_getD, List.getElem?_replicate, hi]
  · rw [List.getD_eq_getElem?_getD,
      List.getElem?_eq_none (show (List.replicate h (0 : Nat)).length ≤ i by simpa using hi)]
    rfl

/-- C4: after any sequence of `add` calls starting from a fresh estimator with
`h` counters, counter `i` holds the maximum trailing-zero count of
`hash_function(item, i)` over the items added (0 when none); each counter is
monotonically non-decreasing under `add`; and re-adding an already-added item
leaves the whole counter list unchanged. -/
theorem fm_counter_invariant (sha : String → Nat) (h : Nat) (items : List String) :
    (∀ i, i < h →
        ((FlajoletMartin.init h).addAll sha items).max_trailing_zeros.getD i 0 =
          (items.map (fun it => count_trailing_zeros (hash_function sha it i))).foldl max 0) ∧
    (∀ (fm : FlajoletMartin) (it : String) (i : Nat),
        fm.max_trailing_zeros.getD i 0 ≤ (fm.add sha it).max_trailing_zeros.getD i 0) ∧
    (∀ x ∈ items,
        ((FlajoletMartin.init h).addAll sha (items ++ [x])).max_trailing_zeros =
          ((FlajoletMartin.init h).addAll sha items).max_trailing_zeros) := by
  refine ⟨?_, ?_, ?_⟩
  · intro i hi
    rw [fm_addAll_getD sha items (FlajoletMartin.init h) i
      (by simpa [FlajoletMartin.init] using hi), fm_init_getD]
  · intro fm it i
    rcases Nat.lt_or_ge i fm.max_trailing_zeros.length with hi | hi
    · rw [fm_add_getD sha fm it i hi]
      exact Nat.le_max_left _ _
    · have h1 : fm.max_trailing_zeros.getD i 0 = 0 := by
        rw [List.getD_eq_getElem?_getD,
          List.getElem?_eq_none (show fm.max_trailing_zeros.length ≤ i from hi)]
        rfl
      rw [h1]
      exact Nat.zero_le _
  · intro x hx
    have hlen : ∀ ys : List String,
        ((FlajoletMartin.init h).addAll sha ys).max_trailing_zeros.length = h := by
      intro ys
      rw [fm_addAll_length]
      simp [FlajoletMartin.init]
    apply List.ext_getElem?
    intro i
    rcases Nat.lt_or_ge i h with hi | hi
    · have e1 : i < ((FlajoletMartin.init h).addAll sha (items ++ [x])).max_trailing_zeros.length :=
        by rw [hlen]; exact hi
      have e2 : i < ((FlajoletMartin.init h).addAll sha items).max_trailing_zeros.length := by
        rw [hlen]; exact hi
      rw [List.getElem?_eq_getElem e1, List.getElem?_eq_getElem e2]
      have hD : ∀ (ys : List String) (hy : i < ((FlajoletMartin.init h).addAll
          sha ys).max_trailing_zeros.length),
          ((FlajoletMartin.init h).addAll sha ys).max_trailing_zeros[i] =
            ((FlajoletMartin.init h).addAll sha ys).max_trailing_zeros.getD i 0 := by
        intro ys hy
        rw [List.getD_eq_getElem?_getD, List.getElem?_eq_getElem hy]
        rfl
      have hinit : i < (FlajoletMartin.init h).max_trailing_zeros.length := by
        simpa [FlajoletMartin.init] using hi
      rw [hD _ e1, hD _ e2, fm_addAll_getD sha _ _ i hinit, fm_addAll_getD sha _ _ i hinit,
        fm_init_getD, List.map_append, List.foldl_append]
      simp only [List.map_cons, List.map_nil, List.foldl_cons, List.foldl_nil]
      have hmem : count_trailing_zeros (hash_function sha x i) ∈
          items.map (fun it => count_trailing_zeros (hash_function sha it i)) :=
        List.mem_map.mpr ⟨x, hx, rfl⟩
      have hle := mem_le_foldl_max _ 0 _ hmem
      exact congrArg some (Nat.max_eq_left hle)
    · rw [List.getElem?_eq_none (by rw [hlen]; exact hi),
        List.getElem?_eq_none (by rw [hlen]; exact hi)]

/-- Witness for C4 at a concrete instance. -/
theorem fm_counter_invariant_witness :
    (0 < 1 ∧
      ((FlajoletMartin.init 1).addAll String.length ["a"]).max_trailing_zeros.getD 0 0 =
        (["a"].map (fun it => count_trailing_zeros (hash_function String.length it 0))).foldl
          max 0) ∧
    ("a" ∈ ["a", "b"] ∧
      ((FlajoletMartin.init 1).addAll String.length (["a", "b"] ++ ["a"])).max_trailing_zeros =
        ((FlajoletMartin.init 1).addAll String.length ["a", "b"]).max_trailing_zeros) :=
  ⟨⟨by decide, (fm_counter_invariant String.length 1 ["a"]).1 0 (by decide)⟩,
    ⟨by decide, (fm_counter_invariant String.length 1 ["a", "b"]).2.2 "a" (by decide)⟩⟩

theorem interpQ2_scale (p : Q2) (c : ℚ) :
    interpQ2 ⟨p.a / c, p.b / c⟩ = interpQ2 p / (c : ℝ) := by
  rw [interpQ2, interpQ2]
  push_cast
  ring

theorem pow2half_interp (n : Nat) :
    interpQ2 (pow2half n) = (2 : ℝ) ^ ((n : ℝ) / 2) := by
  rcases Nat.even_or_odd n with he | ho
  · have h0 : n % 2 = 0 := Nat.even_iff.mp he
    have h2 : 2 * (n / 2) = n := by omega
    have hcast : (n : ℝ) / 2 = ((n / 2 : ℕ) : ℝ) := by
      rw [show (n : ℝ) = ((2 * (n / 2) : ℕ) : ℝ) by rw [h2]]
      push_cast
      ring
    rw [pow2half, if_pos h0, hcast, Real.rpow_natCast, interpQ2]
    push_cast
    ring
  · have h1 : n % 2 = 1 := Nat.odd_iff.mp ho
    have h2 : 2 * (n / 2) + 1 = n := by omega
    have hcast : (n : ℝ) / 2 = ((n / 2 : ℕ) : ℝ) + 1 / 2 := by
      rw [show (n : ℝ) = ((2 * (n / 2) + 1 : ℕ) : ℝ) by rw [h2]]
      push_cast
      ring
    rw [pow2half, if_neg (by omega), hcast, Real.rpow_add (by norm_num), Real.rpow_natCast,
      ← Real.sqrt_eq_rpow, interpQ2]
    push_cast
    ring

/-- C5 counterexample: on a fresh estimator with one counter the code returns
`1 / 0.75351` as the estimate, not `1 / 0.77351` as the claimed
literature-default constant would give. -/
theorem estimate_constant_counterexample :
    ((FlajoletMartin.init 1).estimate_number).1.a ≠ 1 / (77351 / 100000 : ℚ) := by
  have h1 : (FlajoletMartin.init 1).max_trailing_zeros = [0] := rfl
  rw [FlajoletMartin.estimate_number, h1]
  norm_num [List.insertionSort, List.orderedInsert, phiCode]

/-- C5 (amended): `estimate_number` returns the pair
`(2 ^ (median counters) / φ, median counters)` where `φ = 0.75351` — the
constant written in the source, not the literature value 0.77351; with zero
elements added the median counter is 0 and the estimate equals `1 / 0.75351`.
The first component is read as a real number through `interpQ2`. -/
theorem estimate_formula (fm : FlajoletMartin) (hne : fm.max_trailing_zeros ≠ []) :
    interpQ2 (fm.estimate_number).1 =
      (2 : ℝ) ^ ((median fm.max_trailing_zeros : ℚ) : ℝ) / ((phiCode : ℚ) : ℝ) ∧
    (fm.estimate_number).2 = median fm.max_trailing_zeros := by
  rcases Nat.even_or_odd fm.max_trailing_zeros.length with he | ho
  · have h0 : ¬ fm.max_trailing_zeros.length % 2 = 1 := by
      have := Nat.even_iff.mp he
      omega
    constructor
    · rw [FlajoletMartin.estimate_number, median]
      simp only [h0, if_false, if_neg h0]
      rw [interpQ2_scale, pow2half_interp]
      have hsum : (((fm.max_trailing_zeros.insertionSort (· ≤ ·)).getD
            (fm.max_trailing_zeros.length / 2 - 1) 0 +
          (fm.max_trailing_zeros.insertionSort (· ≤ ·)).getD
            (fm.max_trailing_zeros.length / 2) 0 : ℕ) : ℝ) / 2 =
          ((((fm.max_trailing_zeros.insertionSort (· ≤ ·)).getD
              (fm.max_trailing_zeros.length / 2 - 1) 0 : ℚ) +
            ((fm.max_trailing_zeros.insertionSort (· ≤ ·)).getD
              (fm.max_trailing_zeros.length / 2) 0 : ℚ)) / 2 : ℚ) := by
        push_cast
        ring
      rw [hsum]
    · rw [FlajoletMartin.estimate_number, median]
      simp only [h0, if_false, if_neg h0]
      push_cast
      ring
  · have h1 : fm.max_trailing_zeros.length % 2 = 1 := Nat.odd_iff.mp ho
    constructor
    · rw [FlajoletMartin.estimate_number, median]
      simp only [h1, if_true, if_pos h1]
      rw [interpQ2]
      have hm : (((fm.max_trailing_zeros.insertionSort (· ≤ ·)).getD
            (fm.max_trailing_zeros.length / 2) 0 : ℚ) : ℝ) =
          (((fm.max_trailing_zeros.insertionSort (· ≤ ·)).getD
            (fm.max_trailing_zeros.length / 2) 0 : ℕ) : ℝ) := by
        push_cast
        ring
      rw [hm, Real.rpow_natCast]
      push_cast
      ring
    · rw [FlajoletMartin.estimate_number, median]
      simp only [h1, if_true, if_pos h1]

/-- Witness for the amended C5 at the fresh one-counter estimator. -/
theorem estimate_formula_witness :
    (FlajoletMartin.init 1).max_trailing_zeros ≠ [] ∧
      (interpQ2 ((FlajoletMartin.init 1).estimate_number).1 =
        (2 : ℝ) ^ ((median (FlajoletMartin.init 1).max_trailing_zeros : ℚ) : ℝ) /
          ((phiCode : ℚ) : ℝ) ∧
      ((FlajoletMartin.init 1).estimate_number).2 =
        median (FlajoletMartin.init 1).max_trailing_zeros) :=
  ⟨by decide, estimate_formula (FlajoletMartin.init 1) (by decide)⟩

/-- Digest function exhibiting a two-counter state `[0, 1]`: hashes containing
seed 1 get one trailing zero bit, all others none. -/
def shaCex : String → Nat := fun s => if s = "1-a" then 2 else 1

theorem fm_state_cex : (FlajoletMartin.init 2).addAll shaCex ["a"] = ⟨[0, 1]⟩ := by
  have c1 : count_trailing_zeros (hash_function shaCex "a" 0) = 0 :=
    count_trailing_zeros_of_odd _ rfl
  have c2 : count_trailing_zeros (hash_function shaCex "a" 1) = 1 := by
    have h2 : hash_function shaCex "a" 1 = 2 := rfl
    rw [h2, count_trailing_zeros_of_even 2 (by omega) rfl, count_trailing_zeros_of_odd 1 rfl]
  show FlajoletMartin.add shaCex ⟨[0, 0]⟩ "a" = ⟨[0, 1]⟩
  rw [FlajoletMartin.add]
  simp [c1, c2, List.range_succ]

/-- C9 counterexample: on the two-counter estimator over the digest function
`shaCex`, after adding the single item `"a"` the second component of
`estimate_number` is `1/2`, not an integer. -/
theorem estimate_median_not_integer :
    ¬ ∃ m : ℤ, (((FlajoletMartin.init 2).addAll shaCex ["a"]).estimate_number).2 = (m : ℚ) := by
  rintro ⟨m, hm⟩
  rw [fm_state_cex] at hm
  have hsnd : ((FlajoletMartin.estimate_number ⟨[0, 1]⟩)).2 = 1 / 2 := by
    rw [FlajoletMartin.estimate_number]
    norm_num [List.insertionSort, List.orderedInsert]
  rw [hsnd] at hm
  have h2 : (1 : ℤ) = m * 2 := by
    have := hm
    field_simp at this
    exact_mod_cast this
  omega

/-- C9 (amended): `estimate_number` always returns the pair
(estimated cardinality, median of the counters); the median component is an
integer whenever the number of counters is odd (for an even number of counters
it can be a half-integer, as the counterexample shows). -/
theorem estimate_snd_integer_of_odd (fm : FlajoletMartin)
    (hodd : fm.max_trailing_zeros.length % 2 = 1) :
    (fm.estimate_number).2 = median fm.max_trailing_zeros ∧
      ∃ m : ℕ, (fm.estimate_number).2 = (m : ℚ) := by
  rw [FlajoletMartin.estimate_number, median]
  simp only [if_pos hodd]
  exact ⟨by trivial, ⟨_, rfl⟩⟩

/-- Witness for the amended C9 at the fresh one-counter estimator. -/
theorem estimate_snd_integer_of_odd_witness :
    (FlajoletMartin.init 1).max_trailing_zeros.length % 2 = 1 ∧
      (((FlajoletMartin.init 1).estimate_number).2 =
          median (FlajoletMartin.init 1).max_trailing_zeros ∧
        ∃ m : ℕ, ((FlajoletMartin.init 1).estimate_number).2 = (m : ℚ)) :=
  ⟨by decide, estimate_snd_integer_of_odd (FlajoletMartin.init 1) (by decide)⟩

/-! ## Task 1: reservoir sampling -/

/-- Body of the loop in `reservoir_sampling` at enumeration `index` with
element `transaction`: append while `index < k`, else overwrite slot `draw`
when `draw < k` (where `draw` models `random.randint(0, index)`), else drop. -/
def reservoirStep {α : Type} (k : Nat) (sample : List α) (index : Nat) (transaction : α)
    (draw : Nat) : List α :=
  if index < k then sample ++ [transaction]
  else if draw < k then sample.set draw transaction else sample

/-- The enumeration loop of `reservoir_sampling`: `d index` supplies the value
drawn by `random.randint(0, index)` at that index (consulted only when
`index ≥ k`). -/
def reservoirAux {α : Type} (k : Nat) (d : Nat → Nat) :
    List α → Nat → List α → List α
  | sample, _, [] => sample
  | sample, index, t :: rest =>
      reservoirAux k d (reservoirStep k sample index t (d index)) (index + 1) rest

/-- Embeds `reservoir_sampling(k, datastream)` over a finite stream, with the
sequence of index draws supplied by `d`. -/
def reservoirSampling {α : Type} (k : Nat) (d : Nat → Nat) (datastream : List α) : List α :=
  reservoirAux k d [] 0 datastream

theorem reservoirAux_length {α : Type} (k : Nat) (d : Nat → Nat) (rest : List α) :
    ∀ (sample : List α) (i : Nat), sample.length = min i k →
      (reservoirAux k d sample i rest).length = min (i + rest.length) k := by
  induction rest with
  | nil => intro sample i h; simpa using h
  | cons t rest ih =>
    intro sample i h
    rw [reservoirAux]
    have hstep : (reservoirStep k sample i t (d i)).length = min (i + 1) k := by
      rw [reservoirStep]
      rcases Nat.lt_or_ge i k with hik | hik
      · rw [if_pos hik, List.length_append]
        simp only [List.length_cons, List.length_nil]
        omega
      · rw [if_neg (by omega)]
        rcases Nat.lt_or_ge (d i) k with hd | hd
        · rw [if_pos hd, List.length_set]
          omega
        · rw [if_neg (by omega)]
          omega
    rw [ih _ (i + 1) hstep]
    simp only [List.length_cons]
    omega

/-- C3: the sample returned by `reservoir_sampling` has length exactly
`min n k` for a stream of length `n`; in particular for `k = 0` it is always
empty. -/
theorem reservoir_size_bound {α : Type} (k : Nat) (d : Nat → Nat) (datastream : List α) :
    (reservoirSampling k d datastream).length = min datastream.length k ∧
      (k = 0 → reservoirSampling k d datastream = []) := by
  have hlen : (reservoirSampling k d datastream).length = min datastream.length k := by
    rw [reservoirSampling, reservoirAux_length k d datastream [] 0 (by simp)]
    omega
  refine ⟨hlen, fun hk => ?_⟩
  subst hk
  rw [← List.length_eq_zero]
  omega

/-- C6 counterexample: none of the three constructions rejects a non-positive
parameter — with `k = 0` the sampler silently consumes a stream and returns
the empty sample, `create_hash_functions 0 N` returns an empty (usable) hash
family, and `FlajoletMartin.init 0` yields an instance with an empty counter
list; each call returns an ordinary value instead of failing at construction. -/
theorem no_eager_validation_counterexample :
    reservoirSampling 0 (fun _ => 0) [(5 : Nat)] = [] ∧
      create_hash_functions (fun _ => 0) 0 5 = [] ∧
      (FlajoletMartin.init 0).max_trailing_zeros = [] :=
  ⟨rfl, rfl, rfl⟩

/-- C6 (amended): the code performs no eager validation of configuration
parameters: for every non-positive parameter the construction succeeds
silently — `k = 0` makes `reservoir_sampling` return `[]` on every stream
and every draw sequence, a zero hash count makes `create_hash_functions`
return the empty family, and a zero hash count gives a `FlajoletMartin`
instance with no counters (errors, if any, surface only later at use time). -/
theorem nonpositive_params_accepted :
    (∀ (d : Nat → Nat) (datastream : List Nat), reservoirSampling 0 d datastream = []) ∧
      (∀ (sha : String → Nat) (N : Nat), create_hash_functions sha 0 N = []) ∧
      (FlajoletMartin.init 0).max_trailing_zeros = [] := by
  refine ⟨fun d datastream => ?_, fun sha N => rfl, rfl⟩
  rw [← List.length_eq_zero, reservoirSampling,
    reservoirAux_length 0 d datastream [] 0 (by simp)]
  omega

/-- Content of slot `j` (for `j < k`) after the first `i` stream indices have
been processed when the stream element at index `t` is the value `t` itself:
slot `j` starts out holding `j`, and each later index `i ≥ k` whose draw hits
`j` overwrites the slot with `i`. -/
def slotVal (k : Nat) (d : Nat → Nat) (j : Nat) : Nat → Nat
  | 0 => j
  | i + 1 => if k ≤ i ∧ d i = j then i else slotVal k d j i

theorem slotVal_of_le (k : Nat) (d : Nat → Nat) (j : Nat) :
    ∀ i, i ≤ k → slotVal k d j i = j := by
  intro i
  induction i with
  | zero => intro _; rfl
  | succ i ih =>
    intro hik
    rw [slotVal, if_neg (by omega)]
    exact ih (by omega)

theorem map_range_set {α : Type} (n : Nat) (g : Nat → α) (j : Nat) (v : α) (hj : j < n) :
    ((List.range n).map g).set j v = (List.range n).map (fun m => if m = j then v else g m) := by
  apply List.ext_getElem
  · simp
  · intro i h1 h2
    have hi : i < n := by simpa using h2
    rw [List.getElem_set]
    rcases eq_or_ne j i with rfl | hne
    · simp [List.getElem_map, List.getElem_range]
    · simp only [if_neg hne, List.getElem_map, List.getElem_range]
      rw [if_neg (by omega)]

theorem map_range_congr {α : Type} (n : Nat) (f g : Nat → α)
    (h : ∀ j, j < n → f j = g j) : (List.range n).map f = (List.range n).map g :=
  List.map_congr_left (fun j hj => h j (List.mem_range.mp hj))

theorem reservoirAux_inv (k : Nat) (d : Nat → Nat) :
    ∀ (c i : Nat), k ≤ i →
      reservoirAux k d ((List.range k).map (fun j => slotVal k d j i)) i (List.range' i c) =
        (List.range k).map (fun j => slotVal k d j (i + c)) := by
  intro c
  induction c with
  | zero => intro i _; rfl
  | succ c ih =>
    intro i hki
    rw [List.range'_succ, reservoirAux]
    have hstep :
        reservoirStep k ((List.range k).map (fun j => slotVal k d j i)) i i (d i) =
          (List.range k).map (fun j => slotVal k d j (i + 1)) := by
      rw [reservoirStep, if_neg (by omega)]
      rcases Nat.lt_or_ge (d i) k with hd | hd
      · rw [if_pos hd, map_range_set k _ (d i) i hd]
        apply map_range_congr
        intro j hj
        rw [slotVal]
        rcases eq_or_ne j (d i) with rfl | hne
        · rw [if_pos rfl, if_pos ⟨hki, rfl⟩]
        · rw [if_neg hne, if_neg (by tauto)]
      · rw [if_neg (by omega)]
        apply map_range_congr
        intro j hj
        rw [slotVal, if_neg (by omega)]
    rw [hstep]
    have harr : i + (c + 1) = (i + 1) + c := by omega
    rw [harr]
    exact ih (i + 1) (by omega)

theorem reservoirAux_fill (k : Nat) (d : Nat → Nat) :
    ∀ (j i c : Nat), i + j = k →
      reservoirAux k d (List.range i) i (List.range' i (j + c)) =
        reservoirAux k d (List.range k) k (List.range' k c) := by
  intro j
  induction j with
  | zero =>
    intro i c hik
    have : i = k := by omega
    subst this
    simp
  | succ j ih =>
    intro i c hik
    have harr : (j + 1) + c = (j + c) + 1 := by omega
    rw [harr, List.range'_succ, reservoirAux]
    have hstep : reservoirStep k (List.range i) i i (d i) = List.range (i + 1) := by
      rw [reservoirStep, if_pos (by omega), List.range_succ]
    rw [hstep]
    exact ih (i + 1) c (by omega)

theorem reservoirSampling_range_eq (k n : Nat) (d : Nat → Nat) (hkn : k ≤ n) :
    reservoirSampling k d (List.range n) = (List.range k).map (fun j => slotVal k d j n) := by
  rw [reservoirSampling, List.range_eq_range']
  have h0 : ([] : List Nat) = List.range 0 := rfl
  have hn : n = k + (n - k) := by omega
  rw [h0, hn, reservoirAux_fill k d k 0 (n - k) (by omega)]
  have hbase : (List.range k) = (List.range k).map (fun j => slotVal k d j k) := by
    rw [map_range_congr k (fun j => slotVal k d j k) (fun j => j)
      (fun j hj => slotVal_of_le k d j k (le_refl k))]
    exact (List.map_id' _).symm
  have hinv := reservoirAux_inv k d (n - k) k (le_refl k)
  rw [← hbase] at hinv
  rw [hinv]

theorem slotVal_eq_self (k : Nat) (d : Nat → Nat) (j : Nat) :
    ∀ i, (∀ t, k ≤ t → t < i → d t ≠ j) → slotVal k d j i = j := by
  intro i
  induction i with
  | zero => intro _; rfl
  | succ i ih =>
    intro hnone
    rw [slotVal]
    rcases Nat.lt_or_ge i k with hik | hik
    · rw [if_neg (by omega)]
      exact ih (fun t h1 h2 => hnone t h1 (by omega))
    · rw [if_neg (by
        rintro ⟨h1, h2⟩
        exact hnone i h1 (by omega) h2)]
      exact ih (fun t h1 h2 => hnone t h1 (by omega))

theorem slotVal_small (k : Nat) (d : Nat → Nat) (j m : Nat) (hm : m < k) :
    ∀ i, slotVal k d j i = m → m = j ∧ ∀ t, k ≤ t → t < i → d t ≠ j := by
  intro i
  induction i with
  | zero =>
    intro h
    exact ⟨h.symm, fun t _ ht => absurd ht (by omega)⟩
  | succ i ih =>
    intro h
    rw [slotVal] at h
    by_cases hc : k ≤ i ∧ d i = j
    · rw [if_pos hc] at h
      omega
    · rw [if_neg hc] at h
      obtain ⟨hj, hnone⟩ := ih h
      refine ⟨hj, fun t h1 h2 => ?_⟩
      rcases Nat.lt_or_ge t i with ht | ht
      · exact hnone t h1 ht
      · have : t = i := by omega
        subst this
        tauto

theorem slotVal_large (k : Nat) (d : Nat → Nat) (j m : Nat) (hj : j < k) (hm : k ≤ m) :
    ∀ i, slotVal k d j i = m →
      m < i ∧ d m = j ∧ ∀ t, m < t → t < i → d t ≠ j := by
  intro i
  induction i with
  | zero =>
    intro h
    rw [slotVal] at h
    omega
  | succ i ih =>
    intro h
    rw [slotVal] at h
    by_cases hc : k ≤ i ∧ d i = j
    · rw [if_pos hc] at h
      subst h
      exact ⟨by omega, hc.2, fun t h1 h2 => absurd h1 (by omega)⟩
    · rw [if_neg hc] at h
      obtain ⟨h1, h2, h3⟩ := ih h
      refine ⟨by omega, h2, fun t ht1 ht2 => ?_⟩
      rcases Nat.lt_or_ge t i with ht | ht
      · exact h3 t ht1 ht
      · have heq : t = i := by omega
        subst heq
        intro hdt
        exact hc ⟨by omega, hdt⟩

theorem slotVal_hits (k : Nat) (d : Nat → Nat) (m : Nat) (hm : k ≤ m) (hd : d m < k) :
    ∀ i, m < i → (∀ t, m < t → t < i → d t ≠ d m) → slotVal k d (d m) i = m := by
  intro i
  induction i with
  | zero => intro h; omega
  | succ i ih =>
    intro hmi hnone
    rw [slotVal]
    rcases Nat.lt_or_ge m i with hlt | hge
    · rw [if_neg (by
        rintro ⟨h1, h2⟩
        exact hnone i hlt (by omega) h2)]
      exact ih hlt (fun t h1 h2 => hnone t h1 (by omega))
    · have : m = i := by omega
      subst this
      rw [if_pos ⟨hm, rfl⟩]

theorem mem_reservoir_range_iff (k n m : Nat) (d : Nat → Nat) (hkn : k ≤ n) (hmn : m < n) :
    m ∈ reservoirSampling k d (List.range n) ↔
      (if m < k then ∀ t, k ≤ t → t < n → d t ≠ m
       else d m < k ∧ ∀ t, m < t → t < n → d t ≠ d m) := by
  rw [reservoirSampling_range_eq k n d hkn]
  constructor
  · intro hmem
    obtain ⟨j, hj, hval⟩ := List.mem_map.mp hmem
    have hjk : j < k := List.mem_range.mp hj
    rcases Nat.lt_or_ge m k with hmk | hmk
    · rw [if_pos hmk]
      obtain ⟨hje, hnone⟩ := slotVal_small k d j m hmk n hval
      subst hje
      exact hnone
    · rw [if_neg (by omega)]
      obtain ⟨h1, h2, h3⟩ := slotVal_large k d j m hjk hmk n hval
      subst h2
      exact ⟨hjk, h3⟩
  · intro hcond
    rcases Nat.lt_or_ge m k with hmk | hmk
    · rw [if_pos hmk] at hcond
      exact List.mem_map.mpr ⟨m, List.mem_range.mpr hmk,
        slotVal_eq_self k d m n hcond⟩
    · rw [if_neg (by omega)] at hcond
      obtain ⟨hd, hnone⟩ := hcond
      exact List.mem_map.mpr ⟨d m, List.mem_range.mpr hd,
        slotVal_hits k d m hmk hd n (by omega) hnone⟩

theorem reservoirAux_map {α β : Type} (k : Nat) (d : Nat → Nat) (f : α → β) :
    ∀ (rest sample : List α) (i : Nat),
      reservoirAux k d (sample.map f) i (rest.map f) =
        (reservoirAux k d sample i rest).map f := by
  intro rest
  induction rest with
  | nil => intro sample i; rfl
  | cons t rest ih =>
    intro sample i
    rw [List.map_cons, reservoirAux, reservoirAux]
    have hstep : reservoirStep k (sample.map f) i (f t) (d i) =
        (reservoirStep k sample i t (d i)).map f := by
      rw [reservoirStep, reservoirStep]
      split_ifs with h1 h2
      · rw [List.map_append]
        rfl
      · rw [List.map_set]
      · rfl
    rw [hstep, ih]

theorem reservoirSampling_map {α β : Type} (k : Nat) (d : Nat → Nat) (f : α → β)
    (l : List α) :
    reservoirSampling k d (l.map f) = (reservoirSampling k d l).map f :=
  reservoirAux_map k d f l [] 0

theorem map_range_getD {α : Type} (l : List α) (x : α) :
    (List.range l.length).map (fun i => l.getD i x) = l := by
  apply List.ext_getElem
  · simp
  · intro i h1 h2
    rw [List.getElem_map, List.getElem_range, List.getD_eq_getElem?_getD,
      List.getElem?_eq_getElem h2]
    rfl

theorem reservoirAux_subset {α : Type} (k : Nat) (d : Nat → Nat) :
    ∀ (rest sample : List α) (i : Nat) (x : α),
      x ∈ reservoirAux k d sample i rest → x ∈ sample ∨ x ∈ rest := by
  intro rest
  induction rest with
  | nil => intro sample i x h; exact Or.inl h
  | cons t rest ih =>
    intro sample i x h
    rw [reservoirAux] at h
    rcases ih (reservoirStep k sample i t (d i)) (i + 1) x h with hs | hr
    · rw [reservoirStep] at hs
      rcases Nat.lt_or_ge i k with hik | hik
      · rw [if_pos hik] at hs
        rcases List.mem_append.mp hs with h1 | h1
        · exact Or.inl h1
        · right
          simp only [List.mem_singleton] at h1
          exact List.mem_cons.mpr (Or.inl h1)
      · rw [if_neg (by omega)] at hs
        rcases Nat.lt_or_ge (d i) k with hd | hd
        · rw [if_pos hd] at hs
          rcases List.mem_or_eq_of_mem_set hs with h1 | h1
          · exact Or.inl h1
          · exact Or.inr (List.mem_cons.mpr (Or.inl h1))
        · rw [if_neg (by omega)] at hs
          exact Or.inl hs
    · exact Or.inr (List.mem_cons.mpr (Or.inr hr))

theorem mem_reservoir_range_lt (k n i : Nat) (d : Nat → Nat)
    (hi : i ∈ reservoirSampling k d (List.range n)) : i < n := by
  rcases reservoirAux_subset k d (List.range n) [] 0 i hi with h | h
  · cases h
  · exact List.mem_range.mp h

theorem mem_reservoir_iff_of_nodup {α : Type} (l : List α) (x : α) (hnd : l.Nodup)
    (k m : Nat) (hm : m < l.length) (d : Nat → Nat) :
    l.getD m x ∈ reservoirSampling k d l ↔
      m ∈ reservoirSampling k d (List.range l.length) := by
  have hmap : reservoirSampling k d l =
      (reservoirSampling k d (List.range l.length)).map (fun i => l.getD i x) := by
    conv_lhs => rw [← map_range_getD l x]
    exact reservoirSampling_map k d (fun i => l.getD i x) (List.range l.length)
  rw [hmap]
  constructor
  · intro hmem
    obtain ⟨i, hi_mem, hval⟩ := List.mem_map.mp hmem
    have hin : i < l.length := mem_reservoir_range_lt k l.length i d hi_mem
    have hgi : l.getD i x = l[i] := by
      rw [List.getD_eq_getElem?_getD, List.getElem?_eq_getElem hin]
      rfl
    have hgm : l.getD m x = l[m] := by
      rw [List.getD_eq_getElem?_getD, List.getElem?_eq_getElem hm]
      rfl
    have him : i = m := by
      rw [hgi, hgm] at hval
      exact (List.Nodup.getElem_inj_iff hnd).mp hval
    subst him
    exact hi_mem
  · intro hmem
    exact List.mem_map_of_mem (fun i => l.getD i x) hmem

/-- Draw function obtained from a finite list of draws: index `i ≥ k` reads
entry `i - k` (entry `q` of the list is the value of `random.randint(0, k+q)`
at stream index `k + q`). -/
def dOfList (k : Nat) (ds : List Nat) : Nat → Nat :=
  fun i => ds.getD (i - k) 0

/-- All draw sequences for stream indices `s, s+1, ..., s+c-1`: entry `q` of
each list ranges over `{0, ..., s+q}`, exactly the support of
`random.randint(0, index)` at index `s+q`. -/
def drawLists : Nat → Nat → List (List Nat)
  | _, 0 => [[]]
  | s, c + 1 =>
      (List.range (s + 1)).flatMap (fun v => (drawLists (s + 1) c).map (fun ds => v :: ds))

/-- Product `s * (s+1) * ... * (s+c-1)`. -/
def prodFrom : Nat → Nat → Nat
  | _, 0 => 1
  | s, c + 1 => s * prodFrom (s + 1) c

/-- Every entry of the draw list differs from `m` (no later draw hits slot
`m`). -/
def avoids (m : Nat) (ds : List Nat) : Bool :=
  ds.all (fun v => v != m)

/-- The element drawn into the sample at relative position `p` survives to the
end: the draw at position `p` lands below `k` and no later draw repeats it. -/
def survives (k : Nat) : Nat → List Nat → Bool
  | _, [] => false
  | 0, v :: tl => decide (v < k) && avoids v tl
  | p + 1, _ :: tl => survives k p tl

theorem prodFrom_last : ∀ (c s : Nat), prodFrom s (c + 1) = prodFrom s c * (s + c) := by
  intro c
  induction c with
  | zero => intro s; simp [prodFrom]
  | succ c ih =>
    intro s
    rw [show prodFrom s (c + 1 + 1) = s * prodFrom (s + 1) (c + 1) from rfl, ih (s + 1),
      show prodFrom s (c + 1) = s * prodFrom (s + 1) c from rfl,
      show s + 1 + c = s + (c + 1) by omega]
    ring

theorem prodFrom_split : ∀ (a s b : Nat),
    prodFrom s (a + b) = prodFrom s a * prodFrom (s + a) b := by
  intro a
  induction a with
  | zero => intro s b; simp [prodFrom]
  | succ a ih =>
    intro s b
    rw [show a + 1 + b = (a + b) + 1 by omega,
      show prodFrom s (a + b + 1) = s * prodFrom (s + 1) (a + b) from rfl, ih (s + 1) b,
      show prodFrom s (a + 1) = s * prodFrom (s + 1) a from rfl,
      show s + 1 + a = s + (a + 1) by omega]
    ring

theorem prodFrom_shift : ∀ (c s : Nat), (s + c) * prodFrom s c = s * prodFrom (s + 1) c := by
  intro c
  induction c with
  | zero => intro s; simp [prodFrom]
  | succ c ih =>
    intro s
    rw [show prodFrom s (c + 1) = s * prodFrom (s + 1) c from rfl,
      show prodFrom (s + 1) (c + 1) = (s + 1) * prodFrom (s + 2) c from rfl]
    have h1 : (s + (c + 1)) * (s * prodFrom (s + 1) c) =
        s * ((s + 1 + c) * prodFrom (s + 1) c) := by ring
    rw [h1, ih (s + 1)]

theorem sum_map_range_const (n C : Nat) :
    ((List.range n).map (fun _ => C)).sum = n * C := by
  rw [List.map_const' (List.range n) C, List.sum_replicate, smul_eq_mul, List.length_range]

theorem sum_map_range_ite_ge (C : Nat) :
    ∀ n m : Nat, n ≤ m →
      ((List.range n).map (fun v => if v = m then 0 else C)).sum = n * C := by
  intro n
  induction n with
  | zero => intro m _; simp
  | succ n ih =>
    intro m hnm
    rw [List.range_succ, List.map_append, List.sum_append, ih m (by omega)]
    simp only [List.map_cons, List.map_nil, List.sum_cons, List.sum_nil]
    rw [if_neg (by omega)]
    ring

theorem sum_map_range_ite_lt (C : Nat) :
    ∀ n m : Nat, m < n →
      ((List.range n).map (fun v => if v = m then 0 else C)).sum = (n - 1) * C := by
  intro n
  induction n with
  | zero => intro m hm; omega
  | succ n ih =>
    intro m hm
    rw [List.range_succ, List.map_append, List.sum_append]
    simp only [List.map_cons, List.map_nil, List.sum_cons, List.sum_nil]
    rcases Nat.lt_or_ge m n with hlt | hge
    · obtain ⟨n', rfl⟩ : ∃ n', n = n' + 1 := ⟨n - 1, by omega⟩
      rw [ih m hlt, if_neg (by omega)]
      simp only [Nat.add_sub_cancel]
      ring
    · have hme : m = n := by omega
      rw [sum_map_range_ite_ge C n m (by omega), if_pos hme.symm]
      simp

theorem sum_map_range_if_lt_ge (C : Nat) :
    ∀ n K : Nat, n ≤ K →
      ((List.range n).map (fun v => if v < K then C else 0)).sum = n * C := by
  intro n
  induction n with
  | zero => intro K _; simp
  | succ n ih =>
    intro K hnK
    rw [List.range_succ, List.map_append, List.sum_append, ih K (by omega)]
    simp only [List.map_cons, List.map_nil, List.sum_cons, List.sum_nil]
    rw [if_pos (by omega)]
    ring

theorem sum_map_range_if_lt (C : Nat) :
    ∀ n K : Nat, K ≤ n →
      ((List.range n).map (fun v => if v < K then C else 0)).sum = K * C := by
  intro n
  induction n with
  | zero =>
    intro K hK
    have : K = 0 := by omega
    subst this
    simp
  | succ n ih =>
    intro K hK
    rcases Nat.lt_or_ge n K with hlt | hge
    · have : K = n + 1 := by omega
      subst this
      exact sum_map_range_if_lt_ge C (n + 1) (n + 1) (le_refl _)
    · rw [List.range_succ, List.map_append, List.sum_append, ih K hge]
      simp only [List.map_cons, List.map_nil, List.sum_cons, List.sum_nil]
      rw [if_neg (by omega)]
      ring

theorem countP_flatMap {α β : Type} (p : β → Bool) (f : α → List β) :
    ∀ l : List α, (l.flatMap f).countP p = (l.map (fun a => (f a).countP p)).sum := by
  intro l
  induction l with
  | nil => rfl
  | cons a l ih =>
    rw [List.flatMap_cons, List.countP_append, List.map_cons, List.sum_cons, ih]

theorem drawLists_length : ∀ (c s : Nat), (drawLists s c).length = prodFrom (s + 1) c := by
  intro c
  induction c with
  | zero => intro s; rfl
  | succ c ih =>
    intro s
    rw [drawLists, List.length_flatMap]
    have hmap : (List.range (s + 1)).map
          (List.length ∘ fun v => (drawLists (s + 1) c).map (fun ds => v :: ds)) =
        (List.range (s + 1)).map (fun _ => prodFrom (s + 2) c) := by
      apply List.map_congr_left
      intro v _
      simp only [Function.comp_apply, List.length_map]
      exact ih (s + 1)
    rw [hmap, sum_map_range_const]
    rfl

theorem drawLists_mem_length : ∀ (c s : Nat) (ds : List Nat),
    ds ∈ drawLists s c → ds.length = c := by
  intro c
  induction c with
  | zero =>
    intro s ds hds
    rw [drawLists, List.mem_singleton] at hds
    subst hds
    rfl
  | succ c ih =>
    intro s ds hds
    rw [drawLists, List.mem_flatMap] at hds
    obtain ⟨v, _, hmem⟩ := hds
    obtain ⟨tl, htl, rfl⟩ := List.mem_map.mp hmem
    rw [List.length_cons, ih (s + 1) tl htl]

theorem avoids_iff (m : Nat) (ds : List Nat) :
    avoids m ds = true ↔ ∀ v ∈ ds, v ≠ m := by
  simp [avoids]

theorem countP_avoids (m : Nat) : ∀ (c s : Nat), m ≤ s →
    (drawLists s c).countP (avoids m) = prodFrom s c := by
  intro c
  induction c with
  | zero => intro s _; simp [drawLists, avoids, prodFrom, List.countP_cons]
  | succ c ih =>
    intro s hms
    rw [drawLists, countP_flatMap]
    have hmap : (List.range (s + 1)).map
          (fun v => ((drawLists (s + 1) c).map (fun ds => v :: ds)).countP (avoids m)) =
        (List.range (s + 1)).map (fun v => if v = m then 0 else prodFrom (s + 1) c) := by
      apply List.map_congr_left
      intro v _
      rw [List.countP_map]
      rcases eq_or_ne v m with rfl | hvm
      · rw [if_pos rfl]
        apply List.countP_eq_zero.mpr
        intro ds _
        simp [avoids]
      · rw [if_neg hvm]
        have hcongr : ∀ ds ∈ drawLists (s + 1) c,
            ((avoids m ∘ fun ds => v :: ds) ds = true ↔ avoids m ds = true) := by
          intro ds _
          simp [avoids, hvm]
        rw [List.countP_congr hcongr, ih (s + 1) (by omega)]
    rw [hmap, sum_map_range_ite_lt (prodFrom (s + 1) c) (s + 1) m (by omega)]
    simp only [Nat.add_sub_cancel]
    rfl

theorem countP_survives (k : Nat) : ∀ (p r s : Nat), k ≤ s →
    (drawLists s (p + 1 + r)).countP (survives k p) =
      prodFrom (s + 1) p * (k * prodFrom (s + p + 1) r) := by
  intro p
  induction p with
  | zero =>
    intro r s hks
    rw [show 0 + 1 + r = r + 1 by omega, drawLists, countP_flatMap]
    have hmap : (List.range (s + 1)).map
          (fun v => ((drawLists (s + 1) r).map (fun ds => v :: ds)).countP (survives k 0)) =
        (List.range (s + 1)).map (fun v => if v < k then prodFrom (s + 1) r else 0) := by
      apply List.map_congr_left
      intro v _
      rw [List.countP_map]
      rcases Nat.lt_or_ge v k with hvk | hvk
      · rw [if_pos hvk]
        have hcongr : ∀ ds ∈ drawLists (s + 1) r,
            ((survives k 0 ∘ fun ds => v :: ds) ds = true ↔ avoids v ds = true) := by
          intro ds _
          simp [survives, hvk]
        rw [List.countP_congr hcongr, countP_avoids v r (s + 1) (by omega)]
      · rw [if_neg (by omega)]
        apply List.countP_eq_zero.mpr
        intro ds _
        simp [survives, Nat.not_lt_of_ge hvk]
    rw [hmap, sum_map_range_if_lt (prodFrom (s + 1) r) (s + 1) k (by omega)]
    simp [prodFrom]
  | succ p ih =>
    intro r s hks
    rw [show p + 1 + 1 + r = (p + 1 + r) + 1 by omega, drawLists, countP_flatMap]
    have hmap : (List.range (s + 1)).map
          (fun v => ((drawLists (s + 1) (p + 1 + r)).map (fun ds => v :: ds)).countP
            (survives k (p + 1))) =
        (List.range (s + 1)).map
          (fun _ => prodFrom (s + 2) p * (k * prodFrom (s + 1 + p + 1) r)) := by
      apply List.map_congr_left
      intro v _
      rw [List.countP_map]
      have hcongr : ∀ ds ∈ drawLists (s + 1) (p + 1 + r),
          ((survives k (p + 1) ∘ fun ds => v :: ds) ds = true ↔ survives k p ds = true) := by
        intro ds _
        simp [survives]
      rw [List.countP_congr hcongr, ih r (s + 1) (by omega)]
    rw [hmap, sum_map_range_const,
      show prodFrom (s + 1) (p + 1) = (s + 1) * prodFrom (s + 2) p from rfl,
      show s + 1 + p + 1 = s + (p + 1) + 1 by omega]
    ring

theorem getD_eq_getElem_zero (l : List Nat) (q : Nat) (hq : q < l.length) :
    l.getD q 0 = l[q] := by
  rw [List.getD_eq_getElem?_getD, List.getElem?_eq_getElem hq]
  rfl

theorem survives_iff (k : Nat) :
    ∀ (ds : List Nat) (p : Nat), p < ds.length →
      (survives k p ds = true ↔
        ds.getD p 0 < k ∧ ∀ q, p < q → q < ds.length → ds.getD q 0 ≠ ds.getD p 0) := by
  intro ds
  induction ds with
  | nil => intro p hp; simp at hp
  | cons v tl ih =>
    intro p hp
    cases p with
    | zero =>
      rw [show survives k 0 (v :: tl) = (decide (v < k) && avoids v tl) from rfl]
      simp only [Bool.and_eq_true, decide_eq_true_eq, List.getD_cons_zero]
      constructor
      · rintro ⟨h1, h2⟩
        refine ⟨h1, fun q hq1 hq2 => ?_⟩
        obtain ⟨q', rfl⟩ : ∃ q', q = q' + 1 := ⟨q - 1, by omega⟩
        rw [List.getD_cons_succ]
        have hq' : q' < tl.length := by
          simp only [List.length_cons] at hq2
          omega
        rw [getD_eq_getElem_zero tl q' hq']
        exact (avoids_iff v tl).mp h2 _ (List.getElem_mem hq')
      · rintro ⟨h1, h2⟩
        refine ⟨h1, (avoids_iff v tl).mpr fun w hw => ?_⟩
        obtain ⟨q', hq', rfl⟩ := List.mem_iff_getElem.mp hw
        have h3 := h2 (q' + 1) (by omega) (by simp only [List.length_cons]; omega)
        rw [List.getD_cons_succ, getD_eq_getElem_zero tl q' hq'] at h3
        exact h3
    | succ p =>
      rw [show survives k (p + 1) (v :: tl) = survives k p tl from rfl,
        ih p (by simp only [List.length_cons] at hp; omega)]
      simp only [List.getD_cons_succ]
      constructor
      · rintro ⟨h1, h2⟩
        refine ⟨h1, fun q hq1 hq2 => ?_⟩
        obtain ⟨q', rfl⟩ : ∃ q', q = q' + 1 := ⟨q - 1, by omega⟩
        rw [List.getD_cons_succ]
        refine h2 q' (by omega) ?_
        simp only [List.length_cons] at hq2
        omega
      · rintro ⟨h1, h2⟩
        refine ⟨h1, fun q hq1 hq2 => ?_⟩
        have h3 := h2 (q + 1) (by omega) (by simp only [List.length_cons]; omega)
        rw [List.getD_cons_succ] at h3
        exact h3

theorem forall_ne_iff_avoids (k n m : Nat) (ds : List Nat) (hlen : ds.length = n - k)
    (hkn : k ≤ n) :
    (∀ t, k ≤ t → t < n → dOfList k ds t ≠ m) ↔ avoids m ds = true := by
  rw [avoids_iff]
  constructor
  · intro h v hv
    obtain ⟨q, hq, rfl⟩ := List.mem_iff_getElem.mp hv
    have h1 := h (k + q) (by omega) (by omega)
    simp only [dOfList] at h1
    rw [show k + q - k = q by omega, getD_eq_getElem_zero ds q hq] at h1
    exact h1
  · intro h t h1 h2
    simp only [dOfList]
    have hq : t - k < ds.length := by omega
    rw [getD_eq_getElem_zero ds (t - k) hq]
    exact h _ (List.getElem_mem hq)

theorem cond_iff_survives (k n m : Nat) (ds : List Nat) (hlen : ds.length = n - k)
    (hkm : k ≤ m) (hmn : m < n) :
    (dOfList k ds m < k ∧ ∀ t, m < t → t < n → dOfList k ds t ≠ dOfList k ds m) ↔
      survives k (m - k) ds = true := by
  have hp : m - k < ds.length := by omega
  rw [survives_iff k ds (m - k) hp]
  simp only [dOfList]
  constructor
  · rintro ⟨h1, h2⟩
    refine ⟨h1, fun q hq1 hq2 => ?_⟩
    have h3 := h2 (k + q) (by omega) (by omega)
    rw [show k + q - k = q by omega] at h3
    exact h3
  · rintro ⟨h1, h2⟩
    refine ⟨h1, fun t ht1 ht2 => ?_⟩
    exact h2 (t - k) (by omega) (by omega)

theorem mem_reservoir_iff_draws {α : Type} [DecidableEq α] (stream : List α) (k m : Nat)
    (hnd : stream.Nodup) (hkn : k ≤ stream.length) (hm : m < stream.length)
    (ds : List Nat) (hlen : ds.length = stream.length - k) :
    stream[m] ∈ reservoirSampling k (dOfList k ds) stream ↔
      (if m < k then avoids m ds else survives k (m - k) ds) = true := by
  have hgd : stream.getD m (stream[m]) = stream[m] := by
    rw [List.getD_eq_getElem?_getD, List.getElem?_eq_getElem hm]
    rfl
  calc stream[m] ∈ reservoirSampling k (dOfList k ds) stream
      ↔ stream.getD m (stream[m]) ∈ reservoirSampling k (dOfList k ds) stream := by rw [hgd]
    _ ↔ m ∈ reservoirSampling k (dOfList k ds) (List.range stream.length) :=
        mem_reservoir_iff_of_nodup stream (stream[m]) hnd k m hm (dOfList k ds)
    _ ↔ (if m < k then avoids m ds else survives k (m - k) ds) = true := by
        rw [mem_reservoir_range_iff k stream.length m (dOfList k ds) hkn hm]
        rcases Nat.lt_or_ge m k with hmk | hmk
        · rw [if_pos hmk, if_pos hmk]
          exact forall_ne_iff_avoids k stream.length m ds hlen hkn
        · rw [if_neg (by omega), if_neg (by omega)]
          exact cond_iff_survives k stream.length m ds hlen hmk hm

/-- C2: reservoir-sampling uniformity. Over the uniform space of all draw
sequences (`drawLists k (n-k)`: entry `q` ranges over `{0, ..., k+q}`, the
support of `random.randint(0, index)` at stream index `k+q`, all sequences
equally likely), each element of a duplicate-free stream of length `n ≥ k ≥ 1`
lies in the returned sample in exactly the fraction `k/n` of the sequences:
`n * #{draw sequences with stream[m] in the sample} = k * #sequences`. -/
theorem reservoir_uniformity {α : Type} [DecidableEq α] (stream : List α) (k m : Nat)
    (hk : 1 ≤ k) (hnd : stream.Nodup) (hkn : k ≤ stream.length) (hm : m < stream.length) :
    stream.length *
        ((drawLists k (stream.length - k)).countP
          (fun ds => decide (stream[m] ∈ reservoirSampling k (dOfList k ds) stream))) =
      k * (drawLists k (stream.length - k)).length := by
  rcases Nat.lt_or_ge m k with hmk | hmk
  · have hcongr : ∀ ds ∈ drawLists k (stream.length - k),
        ((fun ds => decide (stream[m] ∈ reservoirSampling k (dOfList k ds) stream)) ds = true ↔
          avoids m ds = true) := by
      intro ds hds
      have h := mem_reservoir_iff_draws stream k m hnd hkn hm ds
        (drawLists_mem_length (stream.length - k) k ds hds)
      rw [if_pos hmk] at h
      simpa using h
    rw [List.countP_congr hcongr, countP_avoids m (stream.length - k) k (by omega),
      drawLists_length]
    have hshift := prodFrom_shift (stream.length - k) k
    rw [show k + (stream.length - k) = stream.length by omega] at hshift
    exact hshift
  · have hcongr : ∀ ds ∈ drawLists k (stream.length - k),
        ((fun ds => decide (stream[m] ∈ reservoirSampling k (dOfList k ds) stream)) ds = true ↔
          survives k (m - k) ds = true) := by
      intro ds hds
      have h := mem_reservoir_iff_draws stream k m hnd hkn hm ds
        (drawLists_mem_length (stream.length - k) k ds hds)
      rw [if_neg (by omega)] at h
      simpa using h
    rw [List.countP_congr hcongr, drawLists_length,
      show stream.length - k = (m - k) + 1 + (stream.length - m - 1) by omega,
      countP_survives k (m - k) (stream.length - m - 1) k (le_refl k),
      show k + (m - k) + 1 = m + 1 by omega,
      show (m - k) + 1 + (stream.length - m - 1) =
        (m - k) + ((stream.length - m - 1) + 1) by omega,
      prodFrom_split (m - k) (k + 1) ((stream.length - m - 1) + 1),
      show k + 1 + (m - k) = m + 1 by omega,
      prodFrom_last (stream.length - m - 1) (m + 1),
      show m + 1 + (stream.length - m - 1) = stream.length by omega]
    ring

/-- Witness for C2: the stream `[10, 20, 30]` with `k = 2` and element
index 0; the draw space is `[[0], [1], [2]]` and the element stays in the
sample for 2 of the 3 draws, giving `3 * 2 = 2 * 3`. -/
theorem reservoir_uniformity_witness :
    (1 ≤ 2 ∧ ([10, 20, 30] : List Nat).Nodup ∧ 2 ≤ ([10, 20, 30] : List Nat).length ∧
      0 < ([10, 20, 30] : List Nat).length) ∧
    ([10, 20, 30] : List Nat).length *
        ((drawLists 2 (([10, 20, 30] : List Nat).length - 2)).countP
          (fun ds => decide (([10, 20, 30] : List Nat)[0] ∈
            reservoirSampling 2 (dOfList 2 ds) [10, 20, 30]))) =
      2 * (drawLists 2 (([10, 20, 30] : List Nat).length - 2)).length :=
  ⟨⟨by decide, by decide, by decide, by decide⟩,
    reservoir_uniformity [10, 20, 30] 2 0 (by decide) (by decide) (by decide) (by decide)⟩
